import Mathlib

/-!
Verification of the RAG ingestion/retrieval pipeline of the writing-editor
repository, against a shallow embedding of its TypeScript source.

Texts are embedded as `List Char`; JavaScript string primitives
(`slice`, `trim`, `indexOf`, `lastIndexOf`) are embedded as the `js*`
functions below, over `List Char`, with exact clamping semantics for the
index ranges that actually occur in the source.  Machine numbers are
embedded as `Nat`/`Int`; the one fractional comparison in the source
(`sentenceEnd > chunkSize * 0.5`) is embedded as the exact equivalent
`2 * sentenceEnd > chunkSize` (multiplying by 0.5 is exact in binary
floating point for every integer below 2^53, and for an integer `s`,
`s > c / 2` holds over the reals iff `2 * s > c`).

Potentially non-terminating loops are embedded with an explicit fuel
parameter returning `Option`; `none` means the loop did not finish within
the given fuel, and divergence is the statement that every fuel yields
`none`.
-/

/-- Characters treated as whitespace by the JavaScript `trim` method and the
regex class `\s` (the ASCII members, which are the only ones relevant here). -/
def isWs (c : Char) : Bool :=
  c = ' ' || c = '\t' || c = '\n' || c = '\r' || c = '\x0b' || c = '\x0c'

/-- JavaScript `String.prototype.trim`: remove leading and trailing
whitespace. -/
def jsTrim (l : List Char) : List Char :=
  ((l.dropWhile isWs).reverse.dropWhile isWs).reverse

/-- JavaScript `text.slice(s, e)` for `0 ≤ s, e`: the characters of positions
`[s, min e len)`. -/
def jsSlice (l : List Char) (s e : Nat) : List Char :=
  (l.take e).drop s

/-- JavaScript `text.indexOf(pat, from)` (for a non-negative `from`): the
first position `i ≥ from` at which `pat` occurs in full, if any. -/
def jsIndexOf? (text pat : List Char) (start : Nat) : Option Nat :=
  (List.range (text.length + 1)).find? (fun i => decide (start ≤ i) && pat.isPrefixOf (text.drop i))

/-- JavaScript `text.lastIndexOf(pat, from)`: the last position `i ≤ from` at
which `pat` occurs in full, or `-1`. -/
def jsLastIndexOf (text pat : List Char) (from_ : Nat) : Int :=
  match ((List.range (text.length + 1)).filter
      (fun i => decide (i ≤ from_) && pat.isPrefixOf (text.drop i))).getLast? with
  | some i => (i : Int)
  | none => -1

theorem jsIndexOf?_bounds {text pat : List Char} {s i : Nat}
    (h : jsIndexOf? text pat s = some i) :
    s ≤ i ∧ i ≤ text.length ∧ pat.isPrefixOf (text.drop i) = true := by
  have hp := List.find?_some h
  simp only [Bool.and_eq_true, decide_eq_true_eq] at hp
  have hm := List.mem_of_find?_eq_some h
  rw [List.mem_range] at hm
  exact ⟨hp.1, by omega, hp.2⟩

/-- The six sentence-ending break patterns of `findLastSentenceBreak`. -/
def breakPoints : List (List Char) :=
  [['.', ' '], ['.', '\n'], ['!', ' '], ['!', '\n'], ['?', ' '], ['?', '\n']]

/-- The inner `while` loop of `findLastSentenceBreak` for one break pattern:
repeatedly find the next occurrence of `bp` at or after `pos`; stop when there
is none or it lies at or beyond `maxPos`; otherwise record `idx + bp.length`
and continue from `idx + 1`. -/
def scanBreak (text bp : List Char) (maxPos : Nat) (pos : Nat) (lastBreak : Int) : Int :=
  if hpos : pos < maxPos then
    match hidx : jsIndexOf? text bp pos with
    | none => lastBreak
    | some idx =>
      if hlt : idx < maxPos then
        scanBreak text bp maxPos (idx + 1) (max lastBreak ((idx + bp.length : Nat) : Int))
      else lastBreak
  else lastBreak
termination_by maxPos - pos
decreasing_by
  have := (jsIndexOf?_bounds hidx).1
  omega

/-- Embedding of `findLastSentenceBreak(text, maxPos)` from the chunker:
scan all six sentence-ending patterns, then also consider the last paragraph
break `"\n\n"` before `maxPos` when it sits at a positive position. -/
def findLastSentenceBreak (text : List Char) (maxPos : Nat) : Int :=
  let lastBreak := breakPoints.foldl (fun lb bp => scanBreak text bp maxPos 0 lb) (-1)
  let paragraphBreak := jsLastIndexOf text ['\n', '\n'] maxPos
  if paragraphBreak > 0 then max lastBreak (paragraphBreak + 2) else lastBreak

/-- The body of the chunker's `while` loop that computes the window end `end`
for the window starting at `start` (the local variable `end` of `chunkText`;
`end` is a reserved word in Lean, hence `computeEnd`). -/
def computeEnd (text : List Char) (chunkSize start : Nat) : Nat :=
  let e := start + chunkSize
  if e < text.length then
    let slice := jsSlice text start (e + 200)
    let sentenceEnd := findLastSentenceBreak slice chunkSize
    if 2 * sentenceEnd > (chunkSize : Int) then start + sentenceEnd.toNat else e
  else text.length

/-- The `while (start < text.length)` loop of `chunkText`, with fuel.  Each
iteration slices `[start, end)`, trims it, appends it when non-empty, then
advances `start` to `end - overlap` and breaks when the new `start` reaches
the text length.  (With the source's default parameters every reachable `end`
exceeds `overlap`, so Nat subtraction agrees with JavaScript subtraction.) -/
def chunkLoop (text : List Char) (chunkSize overlap : Nat) :
    Nat → Nat → List (List Char) → Option (List (List Char))
  | 0, _, _ => none
  | fuel + 1, start, chunks =>
    if start < text.length then
      let e := computeEnd text chunkSize start
      let chunk := jsTrim (jsSlice text start e)
      let chunks' := if chunk.length > 0 then chunks ++ [chunk] else chunks
      let start' := e - overlap
      if start' ≥ text.length then some chunks'
      else chunkLoop text chunkSize overlap fuel start' chunks'
    else some chunks

/-- Embedding of `chunkText(text, chunkSize, overlap)` from
`src/lib/ingest/chunker.ts`, with fuel for the window loop.  The source's
defaults are `chunkSize = 1500`, `overlap = 200`. -/
def chunkTextFuel (fuel : Nat) (text : List Char) (chunkSize overlap : Nat) :
    Option (List (List Char)) :=
  if text.length = 0 then some []
  else if text.length ≤ chunkSize then some [jsTrim text]
  else chunkLoop text chunkSize overlap fuel 0 []

theorem isPrefixOf_length_le {pat l : List Char} (h : pat.isPrefixOf l = true) :
    pat.length ≤ l.length :=
  (List.isPrefixOf_iff_prefix.mp h).length_le

theorem scanBreak_le {text bp : List Char} {maxPos : Nat} :
    ∀ (k pos : Nat) (lb : Int), maxPos - pos ≤ k → lb ≤ (text.length : Int) →
      scanBreak text bp maxPos pos lb ≤ (text.length : Int) := by
  intro k
  induction k with
  | zero =>
    intro pos lb hk h
    rw [scanBreak, dif_neg (by omega)]
    exact h
  | succ n ih =>
    intro pos lb hk h
    rw [scanBreak]
    split
    · rename_i hpos
      split
      · exact h
      · rename_i idx hidx
        split
        · rename_i hlt
          obtain ⟨hs, hil, hpre⟩ := jsIndexOf?_bounds hidx
          apply ih
          · omega
          · have hlen := isPrefixOf_length_le hpre
            have hdrop : (text.drop idx).length = text.length - idx := List.length_drop idx text
            have hb : idx + bp.length ≤ text.length := by omega
            exact max_le h (by exact_mod_cast hb)
        · exact h
    · exact h

theorem getLast?_mem' {α : Type} {l : List α} {a : α} (h : l.getLast? = some a) : a ∈ l := by
  induction l with
  | nil => simp at h
  | cons x xs ih =>
    cases xs with
    | nil => simp_all
    | cons y ys =>
      rw [List.getLast?_cons_cons] at h
      exact List.mem_cons_of_mem _ (ih h)

theorem jsLastIndexOf_le (text pat : List Char) (from_ : Nat) :
    jsLastIndexOf text pat from_ + (pat.length : Int) ≤ (text.length : Int) ∨
      jsLastIndexOf text pat from_ = -1 := by
  unfold jsLastIndexOf
  split
  · rename_i i hlast
    left
    have hmem := getLast?_mem' hlast
    have hr := List.mem_range.mp (List.mem_filter.mp hmem).1
    have hp := (List.mem_filter.mp hmem).2
    simp only [Bool.and_eq_true, decide_eq_true_eq] at hp
    have hlen := isPrefixOf_length_le hp.2
    have hdrop : (text.drop i).length = text.length - i := List.length_drop i text
    have hb : i + pat.length ≤ text.length := by omega
    exact_mod_cast hb
  · right; rfl

theorem findLastSentenceBreak_le (text : List Char) (maxPos : Nat) :
    findLastSentenceBreak text maxPos ≤ (text.length : Int) := by
  have hscan : ∀ (bps : List (List Char)) (lb : Int), lb ≤ (text.length : Int) →
      bps.foldl (fun lb bp => scanBreak text bp maxPos 0 lb) lb ≤ (text.length : Int) := by
    intro bps
    induction bps with
    | nil => intro lb h; simpa using h
    | cons bp bps ih =>
      intro lb h
      exact ih _ (scanBreak_le maxPos 0 lb (by omega) h)
  have hfold := hscan breakPoints (-1) (by omega)
  show (if jsLastIndexOf text ['\n', '\n'] maxPos > 0 then
      max (breakPoints.foldl (fun lb bp => scanBreak text bp maxPos 0 lb) (-1))
        (jsLastIndexOf text ['\n', '\n'] maxPos + 2)
    else breakPoints.foldl (fun lb bp => scanBreak text bp maxPos 0 lb) (-1)) ≤ (text.length : Int)
  split
  · rename_i hgt
    rcases jsLastIndexOf_le text ['\n', '\n'] maxPos with hp | hp
    · have h2 : jsLastIndexOf text ['\n', '\n'] maxPos + 2 ≤ (text.length : Int) := by
        simpa using hp
      exact max_le hfold h2
    · rw [hp] at hgt
      omega
  · exact hfold

theorem computeEnd_le (text : List Char) (chunkSize start : Nat) :
    computeEnd text chunkSize start ≤ text.length := by
  show (if start + chunkSize < text.length then
      if 2 * findLastSentenceBreak (jsSlice text start (start + chunkSize + 200)) chunkSize
          > (chunkSize : Int) then
        start + (findLastSentenceBreak (jsSlice text start (start + chunkSize + 200)) chunkSize).toNat
      else start + chunkSize
    else text.length) ≤ text.length
  split
  · rename_i hlt
    split
    · rename_i hse
      have hb := findLastSentenceBreak_le (jsSlice text start (start + chunkSize + 200)) chunkSize
      have hslice : (jsSlice text start (start + chunkSize + 200)).length ≤ text.length - start := by
        unfold jsSlice
        have h1 : ((text.take (start + chunkSize + 200)).drop start).length
            = (text.take (start + chunkSize + 200)).length - start := List.length_drop _ _
        have ht : (text.take (start + chunkSize + 200)).length ≤ text.length :=
          (List.take_sublist _ _).length_le
        omega
      have h1 : findLastSentenceBreak (jsSlice text start (start + chunkSize + 200)) chunkSize
          ≤ ((text.length - start : Nat) : Int) :=
        le_trans hb (by exact_mod_cast hslice)
      omega
    · omega
  · omega

theorem chunkLoop_ne_terminates {text : List Char} {chunkSize overlap : Nat}
    (hov : 0 < overlap) :
    ∀ (fuel start : Nat) (chunks : List (List Char)), start < text.length →
      chunkLoop text chunkSize overlap fuel start chunks = none := by
  intro fuel
  induction fuel with
  | zero => intro start chunks _; rfl
  | succ n ih =>
    intro start chunks hstart
    have hlen : 0 < text.length := Nat.lt_of_le_of_lt (Nat.zero_le _) hstart
    have hend := computeEnd_le text chunkSize start
    have hlt : computeEnd text chunkSize start - overlap < text.length := by omega
    rw [chunkLoop]
    simp only [hstart, if_true, ge_iff_le]
    rw [if_neg (by omega)]
    exact ih _ _ hlt

/-- C1.  The claim states that `chunkText` with the default parameters
terminates for every input, including texts longer than `targetSize = 1500`.
The code refutes this: once the window end is clamped to the text length, the
next start is `text.length - overlap < text.length`, the `while` condition
stays true, and neither exit is ever reached — for every text longer than
1500 characters the loop runs forever (and keeps appending the same tail
window).  Formally: for every fuel the fuelled loop fails to finish. -/
theorem chunkText_diverges (text : List Char) (fuel : Nat)
    (h : 1500 < text.length) :
    chunkTextFuel fuel text 1500 200 = none := by
  unfold chunkTextFuel
  rw [if_neg (by omega), if_neg (by omega)]
  exact chunkLoop_ne_terminates (by omega) fuel 0 [] (by omega)

theorem chunkText_diverges_witness :
    1500 < (List.replicate 1501 'a').length ∧
      chunkTextFuel 5 (List.replicate 1501 'a') 1500 200 = none :=
  have hlen : 1500 < (List.replicate 1501 'a').length := by
    rw [List.length_replicate]; omega
  ⟨hlen, chunkText_diverges (List.replicate 1501 'a') 5 hlen⟩

/-- A chunk has no leading whitespace: its first character, when present, is
not a whitespace character. -/
def noLeadWs (c : List Char) : Bool :=
  match c.head? with
  | some x => !(isWs x)
  | none => true

/-- A chunk has no trailing whitespace: its last character, when present, is
not a whitespace character. -/
def noTrailWs (c : List Char) : Bool :=
  match c.getLast? with
  | some x => !(isWs x)
  | none => true

theorem noLeadWs_dropWhile (l : List Char) : noLeadWs (l.dropWhile isWs) = true := by
  induction l with
  | nil => rfl
  | cons a l ih =>
    rw [List.dropWhile_cons]
    by_cases h : isWs a
    · rw [if_pos h]; exact ih
    · rw [if_neg h]
      simp only [noLeadWs, List.head?_cons]
      simp [Bool.not_eq_true', h]

theorem getLast?_dropWhile (p : Char → Bool) (l : List Char)
    (h : l.dropWhile p ≠ []) : (l.dropWhile p).getLast? = l.getLast? := by
  induction l with
  | nil => simp at h
  | cons a l ih =>
    rw [List.dropWhile_cons] at h ⊢
    by_cases hp : p a
    · rw [if_pos hp] at h ⊢
      cases l with
      | nil => simp at h
      | cons b l' =>
        rw [List.getLast?_cons_cons]
        exact ih h
    · rw [if_neg hp]

theorem noTrailWs_jsTrim (l : List Char) : noTrailWs (jsTrim l) = true := by
  unfold jsTrim noTrailWs
  rw [List.getLast?_reverse]
  have := noLeadWs_dropWhile ((l.dropWhile isWs).reverse)
  unfold noLeadWs at this
  exact this

theorem noLeadWs_jsTrim (l : List Char) : noLeadWs (jsTrim l) = true := by
  unfold jsTrim noLeadWs
  by_cases hD : (l.dropWhile isWs).reverse.dropWhile isWs = []
  · rw [hD]; rfl
  · rw [List.head?_reverse, getLast?_dropWhile _ _ hD, List.getLast?_reverse]
    have := noLeadWs_dropWhile l
    unfold noLeadWs at this
    exact this

theorem chunkLoop_clean {text : List Char} {chunkSize overlap : Nat} :
    ∀ (fuel start : Nat) (acc out : List (List Char)),
      (∀ c ∈ acc, noLeadWs c = true ∧ noTrailWs c = true ∧ c ≠ []) →
      chunkLoop text chunkSize overlap fuel start acc = some out →
      ∀ c ∈ out, noLeadWs c = true ∧ noTrailWs c = true ∧ c ≠ [] := by
  intro fuel
  induction fuel with
  | zero => intro start acc out _ h; exact absurd h (by simp [chunkLoop])
  | succ n ih =>
    intro start acc out hacc h
    rw [chunkLoop] at h
    by_cases hstart : start < text.length
    · simp only [hstart, if_true] at h
      have hacc' : ∀ c ∈ (if (jsTrim (jsSlice text start (computeEnd text chunkSize start))).length > 0
            then acc ++ [jsTrim (jsSlice text start (computeEnd text chunkSize start))] else acc),
          noLeadWs c = true ∧ noTrailWs c = true ∧ c ≠ [] := by
        intro c hc
        by_cases hlen : (jsTrim (jsSlice text start (computeEnd text chunkSize start))).length > 0
        · rw [if_pos hlen] at hc
          rcases List.mem_append.mp hc with hc | hc
          · exact hacc c hc
          · have hceq : c = jsTrim (jsSlice text start (computeEnd text chunkSize start)) := by
              simpa using hc
            subst hceq
            refine ⟨noLeadWs_jsTrim _, noTrailWs_jsTrim _, ?_⟩
            intro hnil
            rw [hnil] at hlen
            simp at hlen
        · rw [if_neg hlen] at hc
          exact hacc c hc
      by_cases hbreak : computeEnd text chunkSize start - overlap ≥ text.length
      · rw [if_pos hbreak] at h
        obtain rfl : (if (jsTrim (jsSlice text start (computeEnd text chunkSize start))).length > 0
            then acc ++ [jsTrim (jsSlice text start (computeEnd text chunkSize start))] else acc) = out :=
          Option.some.inj h
        exact hacc'
      · rw [if_neg hbreak] at h
        exact ih _ _ _ hacc' h
    · simp only [hstart, if_false] at h
      obtain rfl : acc = out := Option.some.inj h
      exact hacc

/-- C10 (amended).  Every chunk returned by `chunkText` carries no leading and
no trailing whitespace; every chunk produced by the window loop is moreover
non-empty, and the single-chunk short path is non-empty whenever the input
does not trim to the empty string.  (The unamended claim fails because the
short path `text.length ≤ chunkSize` returns `[text.trim()]` without dropping
it when the trimmed text is empty — see the counterexample.) -/
theorem chunkText_chunks_clean (fuel : Nat) (text : List Char) (chunkSize overlap : Nat)
    (out : List (List Char)) (h : chunkTextFuel fuel text chunkSize overlap = some out) :
    ∀ c ∈ out, noLeadWs c = true ∧ noTrailWs c = true ∧ (jsTrim text ≠ [] → c ≠ []) := by
  unfold chunkTextFuel at h
  by_cases h0 : text.length = 0
  · rw [if_pos h0] at h
    obtain rfl : [] = out := Option.some.inj h
    intro c hc
    simp at hc
  · rw [if_neg h0] at h
    by_cases h1 : text.length ≤ chunkSize
    · rw [if_pos h1] at h
      obtain rfl : [jsTrim text] = out := Option.some.inj h
      intro c hc
      have hceq : c = jsTrim text := by simpa using hc
      subst hceq
      exact ⟨noLeadWs_jsTrim _, noTrailWs_jsTrim _, fun hne => hne⟩
    · rw [if_neg h1] at h
      intro c hc
      have := chunkLoop_clean fuel 0 [] out (by intro c hc; simp at hc) h c hc
      exact ⟨this.1, this.2.1, fun _ => this.2.2⟩

theorem chunkText_chunks_clean_witness :
    noLeadWs ['h', 'i'] = true ∧ noTrailWs ['h', 'i'] = true ∧
      (jsTrim [' ', 'h', 'i', ' '] ≠ [] → ['h', 'i'] ≠ []) :=
  chunkText_chunks_clean 1 [' ', 'h', 'i', ' '] 1500 200 [['h', 'i']] (by decide)
    ['h', 'i'] (by decide)

/-- C10, counterexample to the claim as stated: a whitespace-only text that
fits in a single chunk is returned as the one-element sequence containing the
empty string — the window that trims to the empty string is not dropped on
the short path, and the returned chunk is empty. -/
theorem chunkText_empty_chunk_cex :
    chunkTextFuel 1 [' '] 1500 200 = some [[]] := by decide

/-- Sorting step of `generateEmbeddings` from `src/lib/ai/embeddings.ts`:
`data.data.sort((a, b) => a.index - b.index)`, i.e. the provider response
items of one batch sorted ascending by their provider-returned index. -/
def sortByIndex {E : Type} (resp : List (Nat × E)) : List (Nat × E) :=
  List.insertionSort (fun a b => a.1 ≤ b.1) resp

instance {E : Type} : IsTotal (Nat × E) (fun a b => a.1 ≤ b.1) :=
  ⟨fun a b => Nat.le_total a.1 b.1⟩

instance {E : Type} : IsTrans (Nat × E) (fun a b => a.1 ≤ b.1) :=
  ⟨fun _ _ _ h1 h2 => Nat.le_trans h1 h2⟩

instance {E : Type} : IsAntisymm (Nat × E) (fun a b => a.1 < b.1) :=
  ⟨fun a b h1 h2 => absurd (Nat.lt_trans h1 h2) (Nat.lt_irrefl _)⟩

/-- Batching loop of `generateEmbeddings`: `for (let i = 0; i < texts.length;
i += BATCH_SIZE)` with `BATCH_SIZE = 100`, slicing `texts.slice(i, i + 100)`
per request.  The first argument is structural fuel; the loop consumes at
least one element per iteration, so any fuel at or above `l.length` is
enough. -/
def toBatchesAux {T : Type} : Nat → List T → List (List T)
  | _, [] => []
  | 0, _ :: _ => []
  | n + 1, t :: ts => (t :: ts).take 100 :: toBatchesAux n ((t :: ts).drop 100)

def toBatches {T : Type} (l : List T) : List (List T) :=
  toBatchesAux l.length l

/-- Embedding of `generateEmbeddings(texts, apiKey)` from
`src/lib/ai/embeddings.ts`, with the per-batch provider request abstracted as
a function from the batch to the response list of (index, embedding) pairs:
texts are cut into batches of 100, each batch's response is sorted by the
provider-returned index, the embeddings are extracted and concatenated. -/
def generateEmbeddings {T E : Type} (provider : List T → List (Nat × E)) (texts : List T) :
    List E :=
  (toBatches texts).flatMap (fun batch => (sortByIndex (provider batch)).map Prod.snd)

theorem sortByIndex_eq_of_perm {E : Type} {resp : List (Nat × E)} {l : List E}
    (h : List.Perm resp l.enum) : sortByIndex resp = l.enum := by
  have hsortedm : List.Sorted (fun a b : Nat × E => a.1 < b.1) l.enum := by
    have h1 : List.Pairwise (· < ·) (List.map Prod.fst l.enum) := by
      rw [List.enum_map_fst]
      exact List.pairwise_lt_range _
    exact List.pairwise_map.mp h1
  have hperm : List.Perm (sortByIndex resp) l.enum :=
    (List.perm_insertionSort _ resp).trans h
  have hsorted_le : List.Sorted (fun a b : Nat × E => a.1 ≤ b.1) (sortByIndex resp) :=
    List.sorted_insertionSort _ resp
  have hnodup : (List.map Prod.fst (sortByIndex resp)).Nodup :=
    (List.Perm.nodup_iff (hperm.map Prod.fst)).mpr (List.nodup_enum_map_fst l)
  have hne : List.Pairwise (fun a b : Nat × E => a.1 ≠ b.1) (sortByIndex resp) :=
    List.pairwise_map.mp hnodup
  have hsorted_lt : List.Sorted (fun a b : Nat × E => a.1 < b.1) (sortByIndex resp) :=
    (hsorted_le.and hne).imp (fun hab => lt_of_le_of_ne hab.1 hab.2)
  exact List.eq_of_perm_of_sorted hperm hsorted_lt hsortedm

theorem toBatchesAux_flatten {T : Type} :
    ∀ (n : Nat) (l : List T), l.length ≤ n → (toBatchesAux n l).flatten = l := by
  intro n
  induction n with
  | zero =>
    intro l hl
    cases l with
    | nil => rfl
    | cons t ts => simp at hl
  | succ n ih =>
    intro l hl
    cases l with
    | nil => rfl
    | cons t ts =>
      rw [toBatchesAux, List.flatten_cons]
      rw [ih ((t :: ts).drop 100)
        (by simp only [List.length_cons] at hl; simp only [List.length_drop, List.length_cons]; omega)]
      exact List.take_append_drop _ _

theorem toBatches_flatten {T : Type} (l : List T) : (toBatches l).flatten = l :=
  toBatchesAux_flatten l.length l le_rfl

theorem toBatchesAux_length_le {T : Type} :
    ∀ (n : Nat) (l : List T), ∀ b ∈ toBatchesAux n l, b.length ≤ 100 := by
  intro n
  induction n with
  | zero =>
    intro l b hb
    cases l with
    | nil => simp [toBatchesAux] at hb
    | cons t ts => simp [toBatchesAux] at hb
  | succ n ih =>
    intro l b hb
    cases l with
    | nil => simp [toBatchesAux] at hb
    | cons t ts =>
      rw [toBatchesAux] at hb
      rcases List.mem_cons.mp hb with hb | hb
      · subst hb
        rw [List.length_take]
        omega
      · exact ih ((t :: ts).drop 100) b hb

theorem toBatches_length_le {T : Type} (l : List T) :
    ∀ b ∈ toBatches l, b.length ≤ 100 :=
  toBatchesAux_length_le l.length l

/-- C2.  `generateEmbeddings` returns one vector per text, aligned by
position: when each batch's provider response is a permutation of the pairs
(request index, embedding of the text at that index) — i.e. the provider may
return a batch in any order but tags each item with its request index — the
output equals the per-text embeddings in input order, and the texts are cut
into consecutive batches of at most 100. -/
theorem generateEmbeddings_aligned {T E : Type} (f : T → E)
    (provider : List T → List (Nat × E)) (texts : List T)
    (hresp : ∀ b ∈ toBatches texts, List.Perm (provider b) ((b.map f).enum)) :
    generateEmbeddings provider texts = texts.map f ∧
      ∀ b ∈ toBatches texts, b.length ≤ 100 := by
  constructor
  · unfold generateEmbeddings
    have hcongr : ∀ (L : List (List T)),
        (∀ b ∈ L, List.Perm (provider b) ((b.map f).enum)) →
        L.flatMap (fun batch => (sortByIndex (provider batch)).map Prod.snd)
          = L.flatMap (fun b => b.map f) := by
      intro L
      induction L with
      | nil => intro _; rfl
      | cons x xs ih =>
        intro hL
        rw [List.flatMap_cons, List.flatMap_cons]
        rw [sortByIndex_eq_of_perm (hL x (List.mem_cons_self x xs)), List.enum_map_snd]
        rw [ih (fun b hb => hL b (List.mem_cons_of_mem x hb))]
    rw [hcongr _ hresp]
    rw [List.flatMap_def, ← List.map_flatten, toBatches_flatten]
  · exact toBatches_length_le texts

theorem generateEmbeddings_aligned_witness :
    generateEmbeddings (fun _ => [(2, 3), (0, 1), (1, 2)]) ["a", "bb", "ccc"]
      = ["a", "bb", "ccc"].map String.length :=
  (generateEmbeddings_aligned String.length (fun _ => [(2, 3), (0, 1), (1, 2)])
    ["a", "bb", "ccc"] (by decide)).1

/-- Row of the `chunks` table as consumed by the `match_chunks` SQL function
(`src/supabase/migrations/001_initial_schema.sql`): identifying fields, the
owning scope, and an optional embedding vector (chunks stored without
embeddings have a NULL vector). -/
structure StoredChunk (V : Type) where
  id : Nat
  content : List Char
  source_id : Nat
  chunk_index : Nat
  project_id : Nat
  user_id : Nat
  embedding : Option V
deriving DecidableEq

/-- Cosine distance `chunks.embedding <=> query_embedding` of a row, with the
pgvector operator abstracted as `dist`.  The value for a NULL embedding is
irrelevant: such rows are removed by the WHERE clause before ordering. -/
def chunkDist {V : Type} (dist : V → V → ℚ) (q : V) (c : StoredChunk V) : ℚ :=
  match c.embedding with
  | some e => dist e q
  | none => 0

/-- Similarity `1 - (chunks.embedding <=> query_embedding)` of a row with a
non-NULL embedding; 0 for a NULL embedding (such rows never reach the
result). -/
def chunkSim {V : Type} (dist : V → V → ℚ) (q : V) (c : StoredChunk V) : ℚ :=
  match c.embedding with
  | some e => 1 - dist e q
  | none => 0

/-- WHERE clause of `match_chunks`: `project_id = match_project_id AND
user_id = match_user_id AND 1 - (embedding <=> query) > match_threshold`.
A NULL embedding makes the SQL comparison NULL, which is not true, so such
rows are excluded. -/
def chunkWhere {V : Type} (dist : V → V → ℚ) (q : V) (pid uid : Nat) (thr : ℚ)
    (c : StoredChunk V) : Bool :=
  c.project_id = pid && c.user_id = uid &&
    match c.embedding with
    | some e => decide (1 - dist e q > thr)
    | none => false

/-- Embedding of the `match_chunks` SQL function: filter the chunk rows by
scope and threshold, order ascending by cosine distance to the query (i.e.
descending by similarity), and keep the first `match_count` rows.  The SQL
defaults are `match_count = 10`, `match_threshold = 0.7`. -/
def match_chunks {V : Type} (dist : V → V → ℚ) (q : V) (rows : List (StoredChunk V))
    (pid uid : Nat) (cnt : Nat) (thr : ℚ) : List (StoredChunk V) :=
  (List.insertionSort (fun a b => chunkDist dist q a ≤ chunkDist dist q b)
    (rows.filter (chunkWhere dist q pid uid thr))).take cnt

theorem chunkDist_some {V : Type} (dist : V → V → ℚ) (q : V) {c : StoredChunk V} {e : V}
    (h : c.embedding = some e) : chunkDist dist q c = dist e q := by
  unfold chunkDist
  rw [h]

theorem chunkSim_some {V : Type} (dist : V → V → ℚ) (q : V) {c : StoredChunk V} {e : V}
    (h : c.embedding = some e) : chunkSim dist q c = 1 - dist e q := by
  unfold chunkSim
  rw [h]

/-- C3.  `match_chunks` returns exactly the stored chunks scoped to the
given project and user whose similarity strictly exceeds the threshold,
ordered by descending similarity, truncated to at most `match_count` rows:
every returned row is a stored row in scope and above threshold; the result
is sorted descending by similarity; its length is the minimum of
`match_count` and the number of qualifying rows; when at most `match_count`
rows qualify the result is exactly the qualifying rows; and the truncation
keeps a highest-similarity selection — the result together with a list of
dropped rows is a permutation of the qualifying rows, and every dropped
row's similarity is at most every returned row's similarity. -/
theorem match_chunks_spec {V : Type} (dist : V → V → ℚ) (q : V)
    (rows : List (StoredChunk V)) (pid uid cnt : Nat) (thr : ℚ) :
    (∀ c ∈ match_chunks dist q rows pid uid cnt thr,
        c ∈ rows ∧ c.project_id = pid ∧ c.user_id = uid ∧
          c.embedding ≠ none ∧ chunkSim dist q c > thr) ∧
      List.Sorted (fun a b => chunkSim dist q b ≤ chunkSim dist q a)
        (match_chunks dist q rows pid uid cnt thr) ∧
      (match_chunks dist q rows pid uid cnt thr).length
        = min cnt (rows.filter (chunkWhere dist q pid uid thr)).length ∧
      ((rows.filter (chunkWhere dist q pid uid thr)).length ≤ cnt →
        List.Perm (match_chunks dist q rows pid uid cnt thr)
          (rows.filter (chunkWhere dist q pid uid thr))) ∧
      ∃ dropped : List (StoredChunk V),
        List.Perm (match_chunks dist q rows pid uid cnt thr ++ dropped)
            (rows.filter (chunkWhere dist q pid uid thr)) ∧
          ∀ a ∈ match_chunks dist q rows pid uid cnt thr, ∀ b ∈ dropped,
            chunkSim dist q b ≤ chunkSim dist q a := by
  haveI hTot : IsTotal (StoredChunk V) (fun a b => chunkDist dist q a ≤ chunkDist dist q b) :=
    ⟨fun a b => le_total _ _⟩
  haveI hTrans : IsTrans (StoredChunk V) (fun a b => chunkDist dist q a ≤ chunkDist dist q b) :=
    ⟨fun _ _ _ h1 h2 => le_trans h1 h2⟩
  have hsorted : List.Sorted (fun a b => chunkDist dist q a ≤ chunkDist dist q b)
      (List.insertionSort (fun a b => chunkDist dist q a ≤ chunkDist dist q b)
        (rows.filter (chunkWhere dist q pid uid thr))) :=
    List.sorted_insertionSort _ _
  have hperm : List.Perm
      (List.insertionSort (fun a b => chunkDist dist q a ≤ chunkDist dist q b)
        (rows.filter (chunkWhere dist q pid uid thr)))
      (rows.filter (chunkWhere dist q pid uid thr)) :=
    List.perm_insertionSort _ _
  have hmem : ∀ c ∈ match_chunks dist q rows pid uid cnt thr,
      c ∈ rows ∧ chunkWhere dist q pid uid thr c = true := by
    intro c hc
    have h1 : c ∈ List.insertionSort (fun a b => chunkDist dist q a ≤ chunkDist dist q b)
        (rows.filter (chunkWhere dist q pid uid thr)) :=
      (List.take_sublist _ _).mem hc
    have h2 : c ∈ rows.filter (chunkWhere dist q pid uid thr) := hperm.mem_iff.mp h1
    exact List.mem_filter.mp h2
  have hwhere : ∀ {c : StoredChunk V}, chunkWhere dist q pid uid thr c = true →
      c.project_id = pid ∧ c.user_id = uid ∧ c.embedding ≠ none ∧ chunkSim dist q c > thr := by
    intro c hc
    unfold chunkWhere at hc
    simp only [Bool.and_eq_true, decide_eq_true_eq] at hc
    obtain ⟨⟨hpid, huid⟩, hthr⟩ := hc
    refine ⟨hpid, huid, ?_⟩
    unfold chunkSim
    cases hemb : c.embedding with
    | none => rw [hemb] at hthr; exact absurd hthr (by simp)
    | some e =>
      rw [hemb] at hthr
      simp only [decide_eq_true_eq] at hthr
      exact ⟨by simp, hthr⟩
  refine ⟨?_, ?_, ?_, ?_, ?_⟩
  · intro c hc
    obtain ⟨hrows, hw⟩ := hmem c hc
    obtain ⟨h1, h2, h3, h4⟩ := hwhere hw
    exact ⟨hrows, h1, h2, h3, h4⟩
  · have hres : List.Sorted (fun a b => chunkDist dist q a ≤ chunkDist dist q b)
        (match_chunks dist q rows pid uid cnt thr) :=
      List.Pairwise.sublist (List.take_sublist _ _) hsorted
    refine List.Pairwise.imp_of_mem ?_ hres
    intro a b ha hb hab
    obtain ⟨_, hwa⟩ := hmem a ha
    obtain ⟨_, hwb⟩ := hmem b hb
    obtain ⟨_, _, hea, _⟩ := hwhere hwa
    obtain ⟨_, _, heb, _⟩ := hwhere hwb
    cases haemb : a.embedding with
    | none => exact absurd haemb hea
    | some ea =>
      cases hbemb : b.embedding with
      | none => exact absurd hbemb heb
      | some eb =>
        rw [chunkSim_some dist q haemb, chunkSim_some dist q hbemb]
        rw [chunkDist_some dist q haemb, chunkDist_some dist q hbemb] at hab
        linarith
  · unfold match_chunks
    rw [List.length_take, hperm.length_eq]
  · intro hle
    unfold match_chunks
    rw [List.take_of_length_le (by rw [hperm.length_eq]; exact hle)]
    exact hperm
  · refine ⟨(List.insertionSort (fun a b => chunkDist dist q a ≤ chunkDist dist q b)
      (rows.filter (chunkWhere dist q pid uid thr))).drop cnt, ?_, ?_⟩
    · show List.Perm
        ((List.insertionSort (fun a b => chunkDist dist q a ≤ chunkDist dist q b)
            (rows.filter (chunkWhere dist q pid uid thr))).take cnt
          ++ (List.insertionSort (fun a b => chunkDist dist q a ≤ chunkDist dist q b)
            (rows.filter (chunkWhere dist q pid uid thr))).drop cnt)
        (rows.filter (chunkWhere dist q pid uid thr))
      rw [List.take_append_drop]
      exact hperm
    · intro a ha b hb
      have ha' : a ∈ (List.insertionSort (fun a b => chunkDist dist q a ≤ chunkDist dist q b)
          (rows.filter (chunkWhere dist q pid uid thr))).take cnt := ha
      have hpw : List.Pairwise (fun a b => chunkDist dist q a ≤ chunkDist dist q b)
          ((List.insertionSort (fun a b => chunkDist dist q a ≤ chunkDist dist q b)
              (rows.filter (chunkWhere dist q pid uid thr))).take cnt
            ++ (List.insertionSort (fun a b => chunkDist dist q a ≤ chunkDist dist q b)
              (rows.filter (chunkWhere dist q pid uid thr))).drop cnt) := by
        rw [List.take_append_drop]
        exact hsorted
      have hab : chunkDist dist q a ≤ chunkDist dist q b :=
        (List.pairwise_append.mp hpw).2.2 a ha' b hb
      have hbq : chunkWhere dist q pid uid thr b = true := by
        have hbs : b ∈ List.insertionSort (fun a b => chunkDist dist q a ≤ chunkDist dist q b)
            (rows.filter (chunkWhere dist q pid uid thr)) :=
          (List.drop_sublist _ _).mem hb
        exact (List.mem_filter.mp (hperm.mem_iff.mp hbs)).2
      obtain ⟨_, hwa⟩ := hmem a ha
      obtain ⟨_, _, hea, _⟩ := hwhere hwa
      obtain ⟨_, _, heb, _⟩ := hwhere hbq
      cases haemb : a.embedding with
      | none => exact absurd haemb hea
      | some ea =>
        cases hbemb : b.embedding with
        | none => exact absurd hbemb heb
        | some eb =>
          rw [chunkSim_some dist q haemb, chunkSim_some dist q hbemb]
          rw [chunkDist_some dist q haemb, chunkDist_some dist q hbemb] at hab
          linarith

def c3rows : List (StoredChunk ℚ) :=
  [⟨1, ['x'], 10, 0, 1, 2, some (1/10)⟩,
   ⟨2, ['y'], 10, 1, 1, 2, some (1/2)⟩,
   ⟨3, ['z'], 11, 0, 1, 2, none⟩,
   ⟨4, ['w'], 12, 0, 1, 2, some (1/5)⟩,
   ⟨5, ['v'], 13, 0, 9, 2, some 0⟩]

theorem match_chunks_spec_witness :
    List.Perm (match_chunks (fun e _ => e) (0 : ℚ) c3rows 1 2 10 (7/10))
      (c3rows.filter (chunkWhere (fun e _ => e) (0 : ℚ) 1 2 (7/10))) :=
  (match_chunks_spec (fun e _ => e) (0 : ℚ) c3rows 1 2 10 (7/10)).2.2.2.1
    (by norm_num [c3rows, chunkWhere])

/-- Status values of a source row (`status` column). -/
inductive SourceStatus where
  | pending
  | processing
  | ready
  | error
deriving DecidableEq

/-- Row of the `sources` table, restricted to the fields the ingestion route
reads or writes. -/
structure SourceRow where
  id : Nat
  project_id : Nat
  user_id : Nat
  status : SourceStatus
  content : Option (List Char)
  error_message : Option String
deriving DecidableEq

/-- Row of the `chunks` table as inserted by the ingestion route
(`src/unnamed/part_000`): owning ids, content, `chunk_index`, and the
optional embedding vector. -/
structure ChunkRecord where
  source_id : Nat
  project_id : Nat
  user_id : Nat
  content : List Char
  chunk_index : Nat
  embedding : Option (List Int)
deriving DecidableEq

/-- The database state the ingestion route touches. -/
structure Db where
  sources : List SourceRow
  chunks : List ChunkRecord
deriving DecidableEq

/-- Supabase `update(...).eq("id", sid)`: apply `f` to every source row whose
id matches. -/
def updateSource (db : Db) (sid : Nat) (f : SourceRow → SourceRow) : Db :=
  { db with sources := db.sources.map (fun s => if s.id = sid then f s else s) }

/-- Supabase `select("*").eq("id", sid).eq("user_id", uid).single()`. -/
def findSource (db : Db) (sid uid : Nat) : Option SourceRow :=
  db.sources.find? (fun s => s.id = sid && s.user_id = uid)

/-- Status and error message of the first source row with the given id. -/
def sourceStatus (db : Db) (sid : Nat) : Option (SourceStatus × Option String) :=
  (db.sources.find? (fun s => s.id = sid)).map (fun s => (s.status, s.error_message))

/-- Chunk rows belonging to one source. -/
def chunksOfSource (db : Db) (sid : Nat) : List ChunkRecord :=
  db.chunks.filter (fun c => c.source_id = sid)

/-- Outcome of the `generateEmbeddings` call, abstracting the provider
request: the vector list on success, or the thrown error message. -/
inductive EmbedOutcome where
  | ok (vecs : List (List Int))
  | fail (msg : String)
deriving DecidableEq

/-- Response of the ingestion route. -/
inductive IngestResult where
  | notFound
  | ok (chunks : Nat) (withEmbeddings : Bool)
  | fail (msg : String)
deriving DecidableEq

/-- Advisory message recorded when chunks are stored without embeddings. -/
def advisoryMsg : String :=
  "Processed without embeddings — add an OpenAI API key for RAG search"

/-- Error thrown when extraction yields no usable text. -/
def emptyTextMsg : String :=
  "No text could be extracted from this source"

/-- Chunk records built by the no-embeddings branch:
`chunks.map((content, index) => ({source_id, project_id, user_id, content,
chunk_index: index}))`. -/
def mkPlainRecords (sid pid uid : Nat) (chunks : List (List Char)) : List ChunkRecord :=
  chunks.enum.map (fun p => ⟨sid, pid, uid, p.2, p.1, none⟩)

/-- Chunk records built by the embeddings branch, additionally carrying
`embedding: JSON.stringify(embeddings[index])`. -/
def mkEmbedRecords (sid pid uid : Nat) (chunks : List (List Char)) (vecs : List (List Int)) :
    List ChunkRecord :=
  chunks.enum.map (fun p => ⟨sid, pid, uid, p.2, p.1, vecs[p.1]?⟩)

/-- Embedding of the ingestion route handler `POST` from
`src/unnamed/part_000` (the chunking/embedding variant of the orchestrator),
for an authenticated user and a present `sourceId`.  The extraction adapter
and the embedding provider are abstracted as injected outcomes; the
chunker runs with the given fuel and `none` is returned when it does not
finish (the route would never respond).  Flow mirrored from the source:
mark `processing`; on extraction failure or empty text mark `error`;
store the full extracted text in `content`; chunk; without an OpenAI key
insert chunk rows without vectors and mark `ready` with an advisory;
with a key and a failed embedding call the generic catch marks `error`;
otherwise insert chunk rows with vectors and mark `ready`.  No branch
deletes previously existing chunk rows. -/
def ingestPOST (db : Db) (uid sid : Nat) (extract : Except String (List Char))
    (hasOpenAIKey : Bool) (embedOut : EmbedOutcome) (fuel : Nat) :
    Option (Db × IngestResult) :=
  match findSource db sid uid with
  | none => some (db, .notFound)
  | some source =>
    let db := updateSource db sid (fun s => { s with status := SourceStatus.processing })
    match extract with
    | .error e =>
      some (updateSource db sid
        (fun s => { s with status := SourceStatus.error, error_message := some e }), .fail e)
    | .ok text =>
      if (jsTrim text).length = 0 then
        some (updateSource db sid
          (fun s =>
            { s with status := SourceStatus.error, error_message := some emptyTextMsg }),
          .fail emptyTextMsg)
      else
        let db := updateSource db sid (fun s => { s with content := some text })
        match chunkTextFuel fuel text 1500 200 with
        | none => none
        | some chunks =>
          if hasOpenAIKey = false then
            let db := { db with
              chunks := db.chunks ++ mkPlainRecords sid source.project_id uid chunks }
            let db := updateSource db sid
              (fun s => { s with status := SourceStatus.ready, error_message := some advisoryMsg })
            some (db, .ok chunks.length false)
          else
            match embedOut with
            | .fail msg =>
              some (updateSource db sid
                (fun s => { s with status := SourceStatus.error, error_message := some msg }), .fail msg)
            | .ok vecs =>
              let db := { db with
                chunks := db.chunks ++ mkEmbedRecords sid source.project_id uid chunks vecs }
              let db := updateSource db sid (fun s => { s with status := SourceStatus.ready })
              some (db, .ok chunks.length true)

theorem db_eq_of_sources_eq {S1 S2 : List SourceRow} {C : List ChunkRecord}
    {r : IngestResult} (h : S1 = S2) :
    (some (⟨S1, C⟩, r) : Option (Db × IngestResult)) = some (⟨S2, C⟩, r) := by
  rw [h]

theorem ingestPOST_embed_ok (db : Db) (uid sid : Nat) (text : List Char)
    (chunks : List (List Char)) (vecs : List (List Int)) (src : SourceRow) (fuel : Nat)
    (hs : findSource db sid uid = some src)
    (ht : (jsTrim text).length ≠ 0)
    (hc : chunkTextFuel fuel text 1500 200 = some chunks) :
    ingestPOST db uid sid (.ok text) true (.ok vecs) fuel =
      some ({ sources := db.sources.map (fun r => if r.id = sid then
                { r with status := SourceStatus.ready, content := some text } else r),
              chunks := db.chunks ++ mkEmbedRecords sid src.project_id uid chunks vecs },
            .ok chunks.length true) := by
  simp only [ingestPOST, hs, ht, hc, updateSource, Bool.true_eq_false, Bool.false_eq_true,
    if_false, ite_false]
  apply db_eq_of_sources_eq
  rw [List.map_map, List.map_map]
  congr 1
  funext s
  by_cases h : s.id = sid
  · simp [Function.comp, h]
  · simp [Function.comp, h]

theorem ingestPOST_no_key (db : Db) (uid sid : Nat) (text : List Char)
    (chunks : List (List Char)) (eo : EmbedOutcome) (src : SourceRow) (fuel : Nat)
    (hs : findSource db sid uid = some src)
    (ht : (jsTrim text).length ≠ 0)
    (hc : chunkTextFuel fuel text 1500 200 = some chunks) :
    ingestPOST db uid sid (.ok text) false eo fuel =
      some ({ sources := db.sources.map (fun r => if r.id = sid then
                { r with
                    status := SourceStatus.ready, content := some text,
                    error_message := some advisoryMsg } else r),
              chunks := db.chunks ++ mkPlainRecords sid src.project_id uid chunks },
            .ok chunks.length false) := by
  simp only [ingestPOST, hs, ht, hc, updateSource, Bool.true_eq_false, Bool.false_eq_true,
    if_false, ite_false]
  apply db_eq_of_sources_eq
  rw [List.map_map, List.map_map]
  congr 1
  funext s
  by_cases h : s.id = sid
  · simp [Function.comp, h]
  · simp [Function.comp, h]

theorem ingestPOST_embed_fail (db : Db) (uid sid : Nat) (text : List Char)
    (chunks : List (List Char)) (msg : String) (src : SourceRow) (fuel : Nat)
    (hs : findSource db sid uid = some src)
    (ht : (jsTrim text).length ≠ 0)
    (hc : chunkTextFuel fuel text 1500 200 = some chunks) :
    ingestPOST db uid sid (.ok text) true (.fail msg) fuel =
      some ({ sources := db.sources.map (fun r => if r.id = sid then
                { r with
                    status := SourceStatus.error, content := some text,
                    error_message := some msg } else r),
              chunks := db.chunks },
            .fail msg) := by
  simp only [ingestPOST, hs, ht, hc, updateSource, Bool.true_eq_false, Bool.false_eq_true,
    if_false, ite_false]
  apply db_eq_of_sources_eq
  rw [List.map_map, List.map_map]
  congr 1
  funext s
  by_cases h : s.id = sid
  · simp [Function.comp, h]
  · simp [Function.comp, h]

theorem find?_map_update (l : List SourceRow) (sid : Nat) (g : SourceRow → SourceRow)
    (hg : ∀ s, (g s).id = s.id) :
    (l.map (fun s => if s.id = sid then g s else s)).find? (fun s => s.id = sid)
      = (l.find? (fun s => s.id = sid)).map g := by
  induction l with
  | nil => rfl
  | cons a l ih =>
    by_cases h : a.id = sid
    · rw [List.map_cons, if_pos h]
      rw [List.find?_cons_of_pos _ (by simp [hg, h]), List.find?_cons_of_pos _ (by simp [h])]
      rfl
    · rw [List.map_cons, if_neg h]
      rw [List.find?_cons_of_neg _ (by simp [h]), List.find?_cons_of_neg _ (by simp [h])]
      exact ih

theorem find?_id_of_findSource {db : Db} {sid uid : Nat} {src : SourceRow}
    (hs : findSource db sid uid = some src) :
    ∃ r, db.sources.find? (fun s => s.id = sid) = some r := by
  have hmem := List.mem_of_find?_eq_some hs
  have hpred := List.find?_some hs
  simp only [Bool.and_eq_true, decide_eq_true_eq] at hpred
  have hsome : (db.sources.find? (fun s => s.id = sid)).isSome := by
    rw [List.find?_isSome]
    exact ⟨src, hmem, by simp [hpred.1]⟩
  exact Option.isSome_iff_exists.mp hsome

theorem filter_mkEmbedRecords (sid pid uid : Nat) (chunks : List (List Char))
    (vecs : List (List Int)) :
    (mkEmbedRecords sid pid uid chunks vecs).filter (fun c => c.source_id = sid)
      = mkEmbedRecords sid pid uid chunks vecs := by
  rw [List.filter_eq_self]
  intro c hc
  obtain ⟨p, hp, rfl⟩ := List.mem_map.mp hc
  simp

theorem filter_mkPlainRecords (sid pid uid : Nat) (chunks : List (List Char)) :
    (mkPlainRecords sid pid uid chunks).filter (fun c => c.source_id = sid)
      = mkPlainRecords sid pid uid chunks := by
  rw [List.filter_eq_self]
  intro c hc
  obtain ⟨p, hp, rfl⟩ := List.mem_map.mp hc
  simp

theorem mkEmbedRecords_map_index (sid pid uid : Nat) (chunks : List (List Char))
    (vecs : List (List Int)) :
    (mkEmbedRecords sid pid uid chunks vecs).map (fun c => c.chunk_index)
      = List.range chunks.length := by
  unfold mkEmbedRecords
  rw [List.map_map]
  have hcomp : ((fun c : ChunkRecord => c.chunk_index) ∘
      fun p : Nat × List Char => (⟨sid, pid, uid, p.2, p.1, vecs[p.1]?⟩ : ChunkRecord))
      = Prod.fst := funext fun p => rfl
  rw [hcomp, List.enum_map_fst]

theorem mkEmbedRecords_map_content (sid pid uid : Nat) (chunks : List (List Char))
    (vecs : List (List Int)) :
    (mkEmbedRecords sid pid uid chunks vecs).map (fun c => c.content) = chunks := by
  unfold mkEmbedRecords
  rw [List.map_map]
  have hcomp : ((fun c : ChunkRecord => c.content) ∘
      fun p : Nat × List Char => (⟨sid, pid, uid, p.2, p.1, vecs[p.1]?⟩ : ChunkRecord))
      = Prod.snd := funext fun p => rfl
  rw [hcomp, List.enum_map_snd]

/-- C4 (amended).  A successful re-ingestion run stores the same chunk texts
and the same per-run chunk count as the first run, but the new rows are
appended to the existing chunk rows rather than replacing them: for every
prior database state, a successful run leaves the chunk table equal to the
old table plus the freshly built records, so re-running ingestion on a
`ready` source accumulates a duplicate copy instead of producing an
equivalent state.  (The route has no delete of old chunk rows; the
counterexample shows the chunk count doubling.) -/
theorem reingest_appends (db : Db) (uid sid : Nat) (text : List Char)
    (chunks : List (List Char)) (vecs : List (List Int)) (src : SourceRow) (fuel : Nat)
    (hs : findSource db sid uid = some src)
    (ht : (jsTrim text).length ≠ 0)
    (hc : chunkTextFuel fuel text 1500 200 = some chunks) :
    (ingestPOST db uid sid (.ok text) true (.ok vecs) fuel).map
        (fun r => (chunksOfSource r.1 sid, r.1.chunks, r.2))
      = some (chunksOfSource db sid ++ mkEmbedRecords sid src.project_id uid chunks vecs,
          db.chunks ++ mkEmbedRecords sid src.project_id uid chunks vecs,
          .ok chunks.length true) := by
  rw [ingestPOST_embed_ok db uid sid text chunks vecs src fuel hs ht hc]
  simp only [Option.map_some']
  unfold chunksOfSource
  rw [List.filter_append, filter_mkEmbedRecords]

def db0 : Db := ⟨[⟨1, 7, 9, SourceStatus.pending, none, none⟩], []⟩

def helloText : List Char := ['h', 'e', 'l', 'l', 'o']

def ingestOnce : Option (Db × IngestResult) :=
  ingestPOST db0 9 1 (.ok helloText) true (.ok [[1]]) 1

def ingestTwice : Option (Db × IngestResult) :=
  ingestOnce.bind (fun r => ingestPOST r.1 9 1 (.ok helloText) true (.ok [[1]]) 1)

/-- C4, counterexample to the claim as stated: ingesting the same short text
into source 1 twice — the second run re-ingesting the already-`ready` source
with unchanged content — leaves two chunk rows for the source instead of one:
the final state is not equivalent to the first (1 row vs 2 rows), because the
old rows were appended to, not replaced. -/
theorem reingest_duplicates_cex :
    ingestOnce.map (fun r => ((chunksOfSource r.1 1).length, sourceStatus r.1 1)) =
        some (1, some (SourceStatus.ready, none)) ∧
      ingestTwice.map (fun r => ((chunksOfSource r.1 1).length, sourceStatus r.1 1)) =
        some (2, some (SourceStatus.ready, none)) := by decide

theorem reingest_appends_witness :
    (ingestPOST db0 9 1 (.ok helloText) true (.ok [[1]]) 1).map
        (fun r => (chunksOfSource r.1 1, r.1.chunks, r.2))
      = some (chunksOfSource db0 1 ++ mkEmbedRecords 1 7 9 [helloText] [[1]],
          db0.chunks ++ mkEmbedRecords 1 7 9 [helloText] [[1]],
          .ok [helloText].length true) :=
  reingest_appends db0 9 1 helloText [helloText] [[1]]
    ⟨1, 7, 9, SourceStatus.pending, none, none⟩ 1 (by decide) (by decide) (by decide)

/-- C5 (amended).  Only the missing-credential case is non-fatal: without an
OpenAI key, chunks are stored without vectors and the source becomes `ready`
with the advisory message.  But when the key is present and the embedding
request fails, the thrown error reaches the route's generic catch handler,
which marks the source `error` with the thrown message and stores no chunk
rows at all — an embedding request failure does set the status to `error`,
contrary to the claim as stated. -/
theorem embedding_failure_paths (db : Db) (uid sid : Nat) (text : List Char)
    (chunks : List (List Char)) (src : SourceRow) (fuel : Nat)
    (hs : findSource db sid uid = some src)
    (ht : (jsTrim text).length ≠ 0)
    (hc : chunkTextFuel fuel text 1500 200 = some chunks) :
    (∀ eo : EmbedOutcome,
      (ingestPOST db uid sid (.ok text) false eo fuel).map
          (fun r => (sourceStatus r.1 sid, chunksOfSource r.1 sid, r.2))
        = some (some (SourceStatus.ready, some advisoryMsg),
            chunksOfSource db sid ++ mkPlainRecords sid src.project_id uid chunks,
            .ok chunks.length false))
    ∧ (∀ msg : String,
      (ingestPOST db uid sid (.ok text) true (.fail msg) fuel).map
          (fun r => (sourceStatus r.1 sid, r.1.chunks, r.2))
        = some (some (SourceStatus.error, some msg), db.chunks, .fail msg)) := by
  obtain ⟨r0, hr0⟩ := find?_id_of_findSource hs
  constructor
  · intro eo
    rw [ingestPOST_no_key db uid sid text chunks eo src fuel hs ht hc]
    simp only [Option.map_some']
    unfold sourceStatus chunksOfSource
    rw [find?_map_update db.sources sid
      (fun s => { s with
        status := SourceStatus.ready, content := some text,
        error_message := some advisoryMsg }) (fun s => rfl)]
    rw [hr0]
    rw [List.filter_append, filter_mkPlainRecords]
    rfl
  · intro msg
    rw [ingestPOST_embed_fail db uid sid text chunks msg src fuel hs ht hc]
    simp only [Option.map_some']
    unfold sourceStatus
    rw [find?_map_update db.sources sid
      (fun s => { s with
        status := SourceStatus.error, content := some text,
        error_message := some msg }) (fun s => rfl)]
    rw [hr0]
    rfl

/-- C5, counterexample to the claim as stated: with an OpenAI key configured
and a failing embedding request, the source status becomes `error` (with the
thrown message recorded), no chunk rows are stored, and the route responds
with a failure — the claim says the source should still become `ready` with
the chunks stored without vectors. -/
theorem embed_failure_error_cex :
    (ingestPOST db0 9 1 (.ok helloText) true
        (.fail "Embedding API error: 500 - boom") 1).map
        (fun r => (sourceStatus r.1 1, (chunksOfSource r.1 1).length, r.2)) =
      some (some (SourceStatus.error, some "Embedding API error: 500 - boom"), 0,
        .fail "Embedding API error: 500 - boom") := by decide

theorem embedding_failure_paths_witness :
    (ingestPOST db0 9 1 (.ok helloText) false (.ok []) 1).map
        (fun r => (sourceStatus r.1 1, chunksOfSource r.1 1, r.2))
      = some (some (SourceStatus.ready, some advisoryMsg),
          chunksOfSource db0 1 ++ mkPlainRecords 1 7 9 [helloText],
          .ok [helloText].length false) :=
  (embedding_failure_paths db0 9 1 helloText [helloText]
    ⟨1, 7, 9, SourceStatus.pending, none, none⟩ 1
    (by decide) (by decide) (by decide)).1 (.ok [])

/-- C8 (amended).  A successful ingestion run into a source that has no
pre-existing chunk rows stores rows whose `chunk_index` values are exactly
`0, 1, …, N-1` in order, with contents equal to the chunker's output in
document order.  The unamended claim fails for re-ingested sources: since
old rows are appended to rather than replaced, a twice-ingested source has
2N rows whose indices duplicately repeat `0 … N-1` — see the
counterexample. -/
theorem chunk_indices_contiguous (db : Db) (uid sid : Nat) (text : List Char)
    (chunks : List (List Char)) (vecs : List (List Int)) (src : SourceRow) (fuel : Nat)
    (hs : findSource db sid uid = some src)
    (ht : (jsTrim text).length ≠ 0)
    (hc : chunkTextFuel fuel text 1500 200 = some chunks)
    (hempty : chunksOfSource db sid = []) :
    (ingestPOST db uid sid (.ok text) true (.ok vecs) fuel).map
        (fun r => ((chunksOfSource r.1 sid).map (fun c => c.chunk_index),
                   (chunksOfSource r.1 sid).map (fun c => c.content)))
      = some (List.range chunks.length, chunks) := by
  rw [ingestPOST_embed_ok db uid sid text chunks vecs src fuel hs ht hc]
  simp only [Option.map_some']
  unfold chunksOfSource at hempty ⊢
  rw [List.filter_append, hempty, filter_mkEmbedRecords, List.nil_append,
    mkEmbedRecords_map_index, mkEmbedRecords_map_content]

/-- C8, counterexample to the claim as stated: after a second successful
ingestion of the same source (status `ready`, so "successfully ingested"),
the source has two stored chunk rows whose `chunk_index` values are `[0, 0]`
— duplicated, not the contiguous `{0, 1}` that the claim requires for two
stored chunks. -/
theorem chunk_index_duplicate_cex :
    ingestTwice.map (fun r => (sourceStatus r.1 1,
        (chunksOfSource r.1 1).map (fun c => c.chunk_index))) =
      some (some (SourceStatus.ready, none), [0, 0]) ∧ [0, 0] ≠ List.range 2 := by decide

theorem chunk_indices_contiguous_witness :
    (ingestPOST db0 9 1 (.ok helloText) true (.ok [[1]]) 1).map
        (fun r => ((chunksOfSource r.1 1).map (fun c => c.chunk_index),
                   (chunksOfSource r.1 1).map (fun c => c.content)))
      = some (List.range [helloText].length, [helloText]) :=
  chunk_indices_contiguous db0 9 1 helloText [helloText] [[1]]
    ⟨1, 7, 9, SourceStatus.pending, none, none⟩ 1
    (by decide) (by decide) (by decide) (by decide)

/-- Source row as created by the `addToSources` tool in the chat route
(`src/unnamed/part_008`): created directly in `ready` state with the derived
text file path. -/
structure SavedSource where
  id : Nat
  title : String
  file_path : String
  status : SourceStatus
deriving DecidableEq

/-- State touched by `addToSources`: the object-storage paths present in the
`sources` bucket and the source rows. -/
structure ChatDb where
  storage : List String
  sources : List SavedSource
deriving DecidableEq

/-- Structured result of a chat tool call. -/
inductive ToolResult where
  | ok (message : String) (sourceId : Nat)
  | fail (message : String)
deriving DecidableEq

/-- Path of the i-th downloaded featured image:
`${filePrefix}/image-${i + 1}.${ext}`. -/
def imgPath (base : String) (i : Nat) (ext : String) : String :=
  base ++ "/image-" ++ toString (i + 1) ++ "." ++ ext

/-- Path of the derived text file: `${filePrefix}/content.txt`. -/
def textPathOf (base : String) : String :=
  base ++ "/content.txt"

/-- Image download-and-upload loop of `addToSources`:
`for (i < Math.min(featuredImages.length, 3))`, fetch the image and, on
success, upload it and record its path in `savedImagePaths`.  Each item pairs
the image URL with the injected fetch/upload outcome (`some ext` when the
fetch succeeded with that file extension and the upload succeeded, `none`
when the download or upload failed and was skipped). -/
def uploadImages (st : ChatDb) (base : String) (items : List (String × Option String)) :
    ChatDb × List String :=
  ((items.take 3).enum).foldl
    (fun acc p =>
      match p.2.2 with
      | none => acc
      | some ext =>
        ({ acc.1 with storage := acc.1.storage ++ [imgPath base p.1 ext] },
         acc.2 ++ [imgPath base p.1 ext]))
    (st, [])

/-- The image paths that `uploadImages` stores and records, in order. -/
def savedPaths (base : String) (items : List (String × Option String)) : List String :=
  ((items.take 3).enum).filterMap (fun p => p.2.2.map (fun ext => imgPath base p.1 ext))

/-- Embedding of the `addToSources` tool of `src/unnamed/part_008`:
scrape the page (outcome injected); fail fast on empty content; upload the
derived text file; download/upload up to 3 featured images; insert the
Source record (failure injected via `insertFails`); on insert failure remove
`[textPath, ...savedImagePaths]` from storage and return a structured
failure; on success append the `ready` source row. -/
def addToSources (st : ChatDb) (newId : Nat) (base title : String)
    (scraped : Option (List Char × List Char × List String))
    (imgOutcomes : List (Option String)) (insertFails : Bool) : ChatDb × ToolResult :=
  match scraped with
  | none => (st, .fail "Failed to add source")
  | some (content, _description, featuredImages) =>
    if (jsTrim content).length = 0 then
      (st, .fail "No content could be extracted from this URL.")
    else
      let textPath := textPathOf base
      let st1 : ChatDb := { st with storage := st.storage ++ [textPath] }
      let up := uploadImages st1 base (featuredImages.zip imgOutcomes)
      if insertFails then
        ({ up.1 with storage := up.1.storage.filter (fun p => decide (p ∉ textPath :: up.2)) },
         .fail "Failed to create source")
      else
        ({ up.1 with sources := up.1.sources ++ [⟨newId, title, textPath, SourceStatus.ready⟩] },
         .ok "Added to sources" newId)

theorem uploadImages_spec (base : String) :
    ∀ (items : List (String × Option String)) (st : ChatDb),
      uploadImages st base items
        = ({ st with storage := st.storage ++ savedPaths base items }, savedPaths base items) := by
  have aux : ∀ (L : List (Nat × String × Option String)) (s0 : ChatDb) (acc0 : List String),
      L.foldl (fun acc p =>
          match p.2.2 with
          | none => acc
          | some ext =>
            ({ acc.1 with storage := acc.1.storage ++ [imgPath base p.1 ext] },
             acc.2 ++ [imgPath base p.1 ext])) (s0, acc0)
        = ({ s0 with storage := s0.storage
              ++ L.filterMap (fun p => p.2.2.map (fun ext => imgPath base p.1 ext)) },
           acc0 ++ L.filterMap (fun p => p.2.2.map (fun ext => imgPath base p.1 ext))) := by
    intro L
    induction L with
    | nil => intro s0 acc0; simp
    | cons p L ih =>
      intro s0 acc0
      cases hp : p.2.2 with
      | none =>
        rw [List.foldl_cons]
        simp only [hp, List.filterMap_cons, Option.map_none']
        exact ih s0 acc0
      | some ext =>
        rw [List.foldl_cons]
        simp only [hp, List.filterMap_cons, Option.map_some']
        rw [ih]
        simp [List.append_assoc]
  intro items st
  unfold uploadImages savedPaths
  rw [aux]
  simp

/-- C7.  When the Source record insert fails after the derived text file and
the successfully fetched images were uploaded, `addToSources` removes exactly
the uploaded paths from storage and returns a structured failure: under the
freshness of the generated timestamped path prefix (none of the constructed
paths pre-exist in storage), the final state equals the initial state — no
orphaned storage object and no source row. -/
theorem addToSources_rollback (st : ChatDb) (newId : Nat) (base title : String)
    (content description : List Char) (featuredImages : List String)
    (imgOutcomes : List (Option String))
    (hcontent : (jsTrim content).length ≠ 0)
    (hfresh : ∀ p ∈ textPathOf base :: savedPaths base (featuredImages.zip imgOutcomes),
      p ∉ st.storage) :
    addToSources st newId base title (some (content, description, featuredImages))
        imgOutcomes true
      = (st, .fail "Failed to create source") := by
  have hrem : ((st.storage ++ [textPathOf base])
        ++ savedPaths base (featuredImages.zip imgOutcomes)).filter
        (fun p => decide (p ∉ textPathOf base :: savedPaths base (featuredImages.zip imgOutcomes)))
      = st.storage := by
    rw [List.filter_append, List.filter_append]
    have h1 : st.storage.filter
        (fun p => decide (p ∉ textPathOf base :: savedPaths base (featuredImages.zip imgOutcomes)))
        = st.storage := by
      rw [List.filter_eq_self]
      intro q hq
      simp only [decide_eq_true_eq]
      intro hmem
      exact hfresh q hmem hq
    have h2 : ([textPathOf base] :
        List String).filter
        (fun p => decide (p ∉ textPathOf base :: savedPaths base (featuredImages.zip imgOutcomes)))
        = [] := by
      simp
    have h3 : (savedPaths base (featuredImages.zip imgOutcomes)).filter
        (fun p => decide (p ∉ textPathOf base :: savedPaths base (featuredImages.zip imgOutcomes)))
        = [] := by
      rw [List.filter_eq_nil_iff]
      intro q hq
      simp only [decide_eq_true_eq, Decidable.not_not]
      exact List.mem_cons_of_mem _ hq
    rw [h1, h2, h3, List.append_nil, List.append_nil]
  unfold addToSources
  simp only [hcontent, if_false, eq_self_iff_true, if_true, uploadImages_spec, hrem]

theorem addToSources_rollback_witness :
    addToSources ⟨["keep.txt"], []⟩ 42 "p" "t" (some (['h', 'i'], [], ["u1"]))
        [some "jpg"] true
      = (⟨["keep.txt"], []⟩, .fail "Failed to create source") :=
  addToSources_rollback ⟨["keep.txt"], []⟩ 42 "p" "t" ['h', 'i'] [] ["u1"] [some "jpg"]
    (by decide) (by decide)

/-- Decision of the language model at one step of the tool loop: produce the
final answer, or request another tool call. -/
inductive StepDecision where
  | finish
  | callTool
deriving DecidableEq

/-- Modelled from the spec: the model↔tool round-trip driver — the
`streamText` step loop of the `ai` package — is not part of this repository;
the repository only configures it with `stopWhen: stepCountIs(5)`
(`src/app/api/chat/route.ts` line 103 and `src/unnamed/part_008`).  Per the
spec, each iteration invokes the model once; if the model produces a final
answer the loop ends, if it requests a tool call the tool result is fed back
and the loop repeats, and when the step count reaches the cap the loop stops
and the text produced so far is returned as the final answer.  The result is
(number of model invocations, finished-with-final-answer). -/
def toolLoopRun (policy : Nat → StepDecision) : Nat → Nat → Nat × Bool
  | 0, steps => (steps, true)
  | budget + 1, steps =>
    match policy steps with
    | .finish => (steps + 1, true)
    | .callTool => toolLoopRun policy budget (steps + 1)

/-- One chat turn's tool loop with the route's configured cap of 5 steps. -/
def chatToolLoop (policy : Nat → StepDecision) : Nat × Bool :=
  toolLoopRun policy 5 0

theorem toolLoopRun_le (policy : Nat → StepDecision) :
    ∀ (budget steps : Nat), (toolLoopRun policy budget steps).1 ≤ budget + steps ∧
      (toolLoopRun policy budget steps).2 = true := by
  intro budget
  induction budget with
  | zero =>
    intro steps
    have h : toolLoopRun policy 0 steps = (steps, true) := rfl
    rw [h]
    exact ⟨by omega, rfl⟩
  | succ n ih =>
    intro steps
    simp only [toolLoopRun]
    cases policy steps with
    | finish =>
      refine ⟨?_, rfl⟩
      show steps + 1 ≤ n + 1 + steps
      omega
    | callTool =>
      obtain ⟨h1, h2⟩ := ih (steps + 1)
      refine ⟨?_, h2⟩
      show (toolLoopRun policy n (steps + 1)).1 ≤ n + 1 + steps
      omega

/-- C6.  The chat turn's tool loop always terminates with a final answer
within 5 model↔tool round trips: for every model policy the loop performs at
most 5 model invocations and ends in the answered state, and the policy that
requests another tool call at every step is stopped at exactly 5 round
trips. -/
theorem chat_loop_bounded :
    (∀ policy : Nat → StepDecision,
      (chatToolLoop policy).1 ≤ 5 ∧ (chatToolLoop policy).2 = true) ∧
      chatToolLoop (fun _ => StepDecision.callTool) = (5, true) := by
  constructor
  · intro policy
    have := toolLoopRun_le policy 5 0
    simpa [chatToolLoop] using this
  · rfl

/-- First whitespace-cleaning step of `scrapeUrlWithImages`
(`src/lib/search/web-search.ts`): `text.replace(/\s+/g, " ")` — every maximal
whitespace run becomes a single space. -/
def collapseWs : List Char → List Char
  | [] => []
  | c :: cs =>
    if isWs c then ' ' :: collapseWs (cs.dropWhile isWs)
    else c :: collapseWs cs
termination_by l => l.length
decreasing_by
  · have := (List.dropWhile_sublist (l := cs) isWs).length_le
    simp only [List.length_cons]
    omega
  · simp

/-- Index of the last newline inside a character list (used to resolve the
greedy backtracking of `\s*` before the final `\n` of the paragraph
regex). -/
def lastNlIdx (r : List Char) : Option Nat :=
  ((r.enum.filter (fun p => p.2 = '\n')).getLast?).map Prod.fst

/-- Second whitespace-cleaning step: `text.replace(/\n\s*\n/g, "\n\n")`.
At a `\n`, the greedy `\s*` with backtracking matches up to the last `\n`
inside the following whitespace run; on a match the matched span is replaced
by two newlines and scanning resumes after the match. -/
def replPara : List Char → List Char
  | [] => []
  | c :: cs =>
    if c = '\n' then
      match lastNlIdx (cs.takeWhile isWs) with
      | some j => '\n' :: '\n' :: replPara (cs.drop (j + 1))
      | none => c :: replPara cs
    else c :: replPara cs
termination_by l => l.length
decreasing_by
  · simp only [List.length_drop, List.length_cons]
    omega
  · simp
  · simp

/-- The cleaned page text of `scrapeUrlWithImages`: collapse whitespace,
normalize paragraph breaks, trim. -/
def scrapeCleaned (text : List Char) : List Char :=
  jsTrim (replPara (collapseWs text))

/-- The `content` field returned by `scrapeUrlWithImages`:
`cleaned.slice(0, 15000)` — the text kept for storage. -/
def scrapeContent (text : List Char) : List Char :=
  (scrapeCleaned text).take 15000

/-- The `content` field the `readWebPage` tool returns inline to the agent:
the tool calls `scrapeUrl`, which returns `scrapeUrlWithImages`'s `content`
unchanged (`src/app/api/chat/route.ts` readWebPage execute,
`src/lib/search/web-search.ts` scrapeUrl). -/
def readWebPageContent (text : List Char) : List Char :=
  scrapeContent text

theorem dropWhile_of_all_false {p : Char → Bool} {l : List Char}
    (h : ∀ c ∈ l, p c = false) : l.dropWhile p = l := by
  cases l with
  | nil => rfl
  | cons a t =>
    rw [List.dropWhile_cons, if_neg]
    simp [h a (List.mem_cons_self a t)]

theorem jsTrim_of_no_ws {l : List Char} (h : ∀ c ∈ l, isWs c = false) : jsTrim l = l := by
  unfold jsTrim
  rw [dropWhile_of_all_false h]
  rw [dropWhile_of_all_false (fun c hc => h c (List.mem_reverse.mp hc))]
  exact List.reverse_reverse l

theorem collapseWs_of_no_ws {l : List Char} (h : ∀ c ∈ l, isWs c = false) :
    collapseWs l = l := by
  induction l with
  | nil => simp [collapseWs]
  | cons a t ih =>
    rw [collapseWs, if_neg]
    · rw [ih (fun c hc => h c (List.mem_cons_of_mem a hc))]
    · simp [h a (List.mem_cons_self a t)]

theorem replPara_of_no_nl {l : List Char} (h : ∀ c ∈ l, ¬ c = '\n') : replPara l = l := by
  induction l with
  | nil => simp [replPara]
  | cons a t ih =>
    rw [replPara, if_neg (h a (List.mem_cons_self a t))]
    rw [ih (fun c hc => h c (List.mem_cons_of_mem a hc))]

/-- C9 (amended).  The scraped page text kept for storage is truncated to at
most 15,000 characters, and the content the `readWebPage` tool returns inline
to the agent is the very same 15,000-bounded string: there is no separate
8,000-character truncation anywhere on the inline path — the ~8,000 bound
the claim states does not exist in the code, as the counterexample shows. -/
theorem scrape_bounds (text : List Char) :
    (scrapeContent text).length ≤ 15000 ∧
      readWebPageContent text = scrapeContent text ∧
      (readWebPageContent text).length ≤ 15000 := by
  have hb : (scrapeContent text).length ≤ 15000 := by
    unfold scrapeContent
    rw [List.length_take]
    exact min_le_left _ _
  exact ⟨hb, rfl, hb⟩

/-- C9, counterexample to the claim as stated: a page whose cleaned text is
9,000 non-whitespace characters passes through `readWebPage` untruncated —
the inline content has 9,000 characters, strictly more than the claimed
~8,000-character bound (the only truncation is at 15,000). -/
theorem readWebPage_exceeds_8000_cex :
    (readWebPageContent (List.replicate 9000 'a')).length = 9000 ∧
      8000 < (readWebPageContent (List.replicate 9000 'a')).length := by
  have hmem : ∀ c ∈ List.replicate 9000 'a', c = 'a' := fun c hc => List.eq_of_mem_replicate hc
  have hws : ∀ c ∈ List.replicate 9000 'a', isWs c = false := by
    intro c hc
    rw [hmem c hc]
    decide
  have hnl : ∀ c ∈ List.replicate 9000 'a', ¬ c = '\n' := by
    intro c hc
    rw [hmem c hc]
    decide
  have hlen : (List.replicate 9000 'a').length = 9000 := List.length_replicate 9000 'a'
  have heq : readWebPageContent (List.replicate 9000 'a') = List.replicate 9000 'a' := by
    unfold readWebPageContent scrapeContent scrapeCleaned
    rw [collapseWs_of_no_ws hws, replPara_of_no_nl hnl, jsTrim_of_no_ws hws]
    exact List.take_of_length_le (by omega)
  rw [heq, hlen]
  omega
